import Mathlib

/-!
Verification of the PDF translator pipeline (src/app.py).

The shallow embedding models the four pure functions of the source
(`extract_all_text`, `remove_think_tags`, `format_extraction`,
`translate_to_malayalam`) and the stateful behaviour of `main`
(Streamlit session state, Format / Translate button handlers).

The remote Groq call is an external collaborator: a stage run is
parameterised by a `ProviderOutcome`, which is either the finite list of
streamed chunk contents (`Except.ok`, each chunk's `delta.content` being
an optional string, as in the source's `chunk.choices[0].delta.content
or ""`) or a raised provider exception carrying its description
(`Except.error`, caught by the source's `except Exception as e`).
-/

namespace App

/-- Start marker of a reasoning span, the literal `<think>` of the regex
in `remove_think_tags`. -/
def startTag : List Char := "<think>".data

/-- End marker of a reasoning span, the literal `</think>` of the regex
in `remove_think_tags`. -/
def endTag : List Char := "</think>".data

/-- Scan for the first occurrence of the end marker `</think>`; on a hit
drop everything up to and including it (the lazy `.*?</think>` part of
the regex), otherwise report that no end marker follows. -/
def dropThroughEnd : List Char → Option (List Char)
  | [] => none
  | c :: cs =>
    if endTag.isPrefixOf (c :: cs) then some ((c :: cs).drop 8)
    else dropThroughEnd cs

/-- Fuelled left-to-right scan of `re.sub(r"<think>.*?</think>", "", text)`:
at the leftmost start marker that has a following end marker, the span up
to the nearest end marker is deleted and scanning resumes after it; a
start marker with no following end marker matches nothing and the rest of
the text is kept.  Fuel at least the length of the list is always enough. -/
def subThinkFuel : Nat → List Char → List Char
  | 0, l => l
  | _ + 1, [] => []
  | fuel + 1, c :: cs =>
    if startTag.isPrefixOf (c :: cs) then
      match dropThroughEnd ((c :: cs).drop 7) with
      | some rest => subThinkFuel fuel rest
      | none => c :: cs
    else
      c :: subThinkFuel fuel cs

/-- The substitution pass of `remove_think_tags` (before the final
`.strip()`), at the character-list level. -/
def subThink (l : List Char) : List Char :=
  subThinkFuel l.length l

/-- Python's `str.strip()` on a character list: drop whitespace from the
front, then from the back. -/
def trimChars (l : List Char) : List Char :=
  ((l.dropWhile Char.isWhitespace).reverse.dropWhile Char.isWhitespace).reverse

/-- Embeds `remove_think_tags` (src/app.py lines 15-26): delete every
lazily-matched `<think>…</think>` span, then strip surrounding
whitespace. -/
def remove_think_tags (text : String) : String :=
  String.mk (trimChars (subThink text.data))

/-- Embeds the streaming accumulation loop of both stages
(`response += chunk.choices[0].delta.content or ""`): a left fold over
the emitted chunk contents, an absent content contributing `""`. -/
def concatChunks (chunks : List (Option String)) : String :=
  chunks.foldl (fun acc c => acc ++ c.getD "") ""

/-- The literal page separator of `extract_all_text`. -/
def pageBreakMarker : String := "\n\n--- Page Break ---\n\n"

/-- Python's `sep.join(pieces)`. -/
def join_with (sep : String) : List String → String
  | [] => ""
  | [t] => t
  | t :: ts => t ++ sep ++ join_with sep ts

/-- A page of the uploaded PDF, reduced to what the source reads from it:
the text its `extract_text()` call yields (possibly empty). -/
structure PdfPage where
  extract_text : String

/-- The opaque `PyPDF2.PdfReader` collaborator: an ordered list of pages. -/
structure PdfReader where
  pages : List PdfPage

/-- Embeds `extract_all_text` (src/app.py lines 7-12): collect every
page's extracted text in order and join with the page-break marker. -/
def extract_all_text (pdf_reader : PdfReader) : String :=
  join_with pageBreakMarker (pdf_reader.pages.map PdfPage.extract_text)

/-- Outcome of one remote completion call: the streamed chunk contents,
or the description of the exception the provider raised. -/
abbrev ProviderOutcome := Except String (List (Option String))

/-- One conversational turn submitted to the provider. -/
structure Message where
  role : String
  content : String

/-- The two messages `format_extraction` submits (src/app.py lines 42-51). -/
def format_messages (text : String) : List Message :=
  [⟨"system",
    "You are a language expert who formats the extraction. " ++
    "Improve readability while maintaining the original structure."⟩,
   ⟨"user", text⟩]

/-- The two messages `translate_to_malayalam` submits (src/app.py lines 83-92). -/
def translate_messages (text : String) : List Message :=
  [⟨"system",
    "You are a professional translator. Translate the following text " ++
    "to Malayalam while maintaining the original meaning and structure. " ++
    "Use Malayalam script."⟩,
   ⟨"user", text⟩]

/-- Embeds `format_extraction` (src/app.py lines 29-67): on a clean call,
assemble the stream and strip reasoning spans; on any provider exception,
return the fixed failure message built from the exception text. -/
def format_extraction (text api_key : String) (provider : ProviderOutcome) : String :=
  match provider with
  | Except.ok chunks => remove_think_tags (concatChunks chunks)
  | Except.error e => "Error in formatting extraction: " ++ e

/-- Embeds `translate_to_malayalam` (src/app.py lines 70-109). -/
def translate_to_malayalam (text api_key : String) (provider : ProviderOutcome) : String :=
  match provider with
  | Except.ok chunks => remove_think_tags (concatChunks chunks)
  | Except.error e => "Error in translation: " ++ e

/-- A run scope: the Complete Document view or one Individual Page. -/
inductive Scope where
  | wholeDocument : Scope
  | page : Nat → Scope

/-- The `st.session_state` key the Format handler writes for a scope:
`'formatted_text'` (line 162) or `'formatted_text_page_{n}'` (line 215). -/
def sessionKey : Scope → String
  | Scope.wholeDocument => "formatted_text"
  | Scope.page n => "formatted_text_page_" ++ toString n

/-- `st.session_state`, as a partial map from keys to stored strings. -/
abbrev SessionState := String → Option String

/-- The session state before any stage has run. -/
def emptyState : SessionState := fun _ => none

/-- Dictionary assignment `st.session_state[k] = v`. -/
def updateState (st : SessionState) (k v : String) : SessionState :=
  fun k2 => if k2 = k then some v else st k2

/-- Embeds the Format button handler (src/app.py lines 159-163 and
212-216): run `format_extraction` on the scope's raw text and store the
result under the scope's session key, returning the new state and the
displayed text. -/
def format_click (st : SessionState) (scope : Scope) (raw_text api_key : String)
    (provider : ProviderOutcome) : SessionState × String :=
  let formatted_text := format_extraction raw_text api_key provider
  (updateState st (sessionKey scope) formatted_text, formatted_text)

/-- Embeds the Translate button handler (src/app.py lines 174-186 and
220-227): pick `st.session_state.get(key, raw_text)` as the text to
translate, submit it, and display the result; nothing is written back to
the session state. -/
def translate_click (st : SessionState) (scope : Scope) (raw_text api_key : String)
    (provider : ProviderOutcome) : SessionState × List Message × String :=
  let text_to_translate := (st (sessionKey scope)).getD raw_text
  (st, translate_messages text_to_translate,
   translate_to_malayalam text_to_translate api_key provider)

/-- The user-turn content of a submitted message list. -/
def getUserContent (msgs : List Message) : Option String :=
  (msgs.filter (fun m => m.role == "user")).head?.map Message.content

/-- A text laid out as alternating safe segments and reasoning spans:
`encodeSegs [(a₁, m₁), …, (aₙ, mₙ)] t` is
`a₁ <think> m₁ </think> … aₙ <think> mₙ </think> t`.  Used to state what
`remove_think_tags` deletes. -/
def encodeSegs : List (List Char × List Char) → List Char → List Char
  | [], t => t
  | (a, m) :: ps, t => a ++ (startTag ++ (m ++ (endTag ++ encodeSegs ps t)))

/-- The page-break marker at the character-list level. -/
def pageBreakData : List Char := pageBreakMarker.data

/-- Modelled from the spec: the re-splitting contract of §4.1 — tooling
splits the combined extraction on the page-break marker (left-to-right,
non-overlapping, as Python's `str.split`).  Fuelled scan; fuel at least
the length of the list is always enough. -/
def splitPBFuel : Nat → List Char → List (List Char)
  | 0, l => [l]
  | _ + 1, [] => [[]]
  | fuel + 1, c :: cs =>
    if pageBreakData.isPrefixOf (c :: cs) then
      [] :: splitPBFuel fuel ((c :: cs).drop 22)
    else
      match splitPBFuel fuel cs with
      | [] => [[c]]
      | h :: t => (c :: h) :: t

/-- Modelled from the spec: splitting a combined extraction on the
page-break marker. -/
def splitPB (l : List Char) : List (List Char) :=
  splitPBFuel l.length l

/-- Joining character lists with a separator, mirroring `join_with` at
the character level. -/
def charJoin (sep : List Char) : List (List Char) → List Char
  | [] => []
  | [t] => t
  | t :: ts => t ++ sep ++ charJoin sep ts

/-! ### Marker occurrence lemmas -/

lemma isPrefixOf_eq_true {l₁ l₂ : List Char} : l₁.isPrefixOf l₂ = true ↔ l₁ <+: l₂ :=
  List.isPrefixOf_iff_prefix

lemma isPrefixOf_eq_false {l₁ l₂ : List Char} (h : ¬ l₁ <+: l₂) :
    l₁.isPrefixOf l₂ = false := by
  cases hb : l₁.isPrefixOf l₂
  · rfl
  · exact absurd (isPrefixOf_eq_true.mp hb) h

lemma infix_of_pref {l₁ l₂ : List Char} (h : l₁ <+: l₂) : l₁ <:+: l₂ := by
  obtain ⟨u, hu⟩ := h
  exact ⟨[], u, by simpa using hu⟩

lemma infix_cons_of {l x : List Char} {c : Char} (h : l <:+: x) : l <:+: c :: x :=
  List.infix_cons h

/-- A tag occurrence that starts strictly inside `a` in `a ++ tag ++ rest`
already lies inside `a` extended by the first `tag.length - 1` characters
of `tag`. -/
lemma tag_prefix_of_guard {tag a rest : List Char} {k : Nat} (hk : tag.length = k + 1)
    (ha : a ≠ []) (hp : tag <+: (a ++ (tag ++ rest))) :
    tag <:+: (a ++ tag.take k) := by
  have htp := List.take_prefix k tag
  have h0 : tag.take k <+: (tag ++ rest) := htp.trans (List.prefix_append tag rest)
  obtain ⟨u, hu⟩ := h0
  have h1 : (a ++ tag.take k) <+: (a ++ (tag ++ rest)) :=
    ⟨u, by rw [List.append_assoc, hu]⟩
  have hlen : tag.length ≤ (a ++ tag.take k).length := by
    rw [List.length_append, List.length_take, hk, Nat.min_eq_left (Nat.le_succ k)]
    have h2 : 0 < a.length := List.length_pos.mpr ha
    omega
  exact infix_of_pref (List.prefix_of_prefix_length_le hp h1 hlen)

/-! ### Lemmas about the end-marker scan -/

lemma dropThroughEnd_of_pos {l : List Char} (h : endTag.isPrefixOf l = true) :
    dropThroughEnd l = some (l.drop 8) := by
  cases l with
  | nil => exact absurd h (by decide)
  | cons c cs => rw [dropThroughEnd, if_pos h]

lemma dropThroughEnd_length {l r : List Char} (h : dropThroughEnd l = some r) :
    r.length + 8 ≤ l.length := by
  induction l with
  | nil => simp [dropThroughEnd] at h
  | cons c cs ih =>
    rw [dropThroughEnd] at h
    split at h
    · rename_i hpre
      have hle := (isPrefixOf_eq_true.mp hpre).length_le
      rw [show endTag.length = 8 from rfl] at hle
      injection h with h2
      subst h2
      rw [List.length_drop]
      omega
    · have := ih h
      simp only [List.length_cons]
      omega

lemma dropThroughEnd_of_no_end {l : List Char} (H : ¬ endTag <:+: l) :
    dropThroughEnd l = none := by
  induction l with
  | nil => rfl
  | cons c cs ih =>
    have hpre : endTag.isPrefixOf (c :: cs) = false :=
      isPrefixOf_eq_false (fun hp => H (infix_of_pref hp))
    rw [dropThroughEnd, if_neg (by simp [hpre])]
    exact ih (fun hi => H (infix_cons_of hi))

/-- The scan for the end marker finds the designated occurrence when no
occurrence starts inside `m` (also not one leaking into the marker). -/
lemma dropThroughEnd_append {m r : List Char}
    (H : ¬ endTag <:+: (m ++ endTag.take 7)) :
    dropThroughEnd (m ++ (endTag ++ r)) = some r := by
  induction m with
  | nil =>
    rw [List.nil_append,
      dropThroughEnd_of_pos (isPrefixOf_eq_true.mpr (List.prefix_append _ _)),
      List.drop_left' (show endTag.length = 8 from rfl)]
  | cons c m ih =>
    rw [List.cons_append, dropThroughEnd]
    have hpre : endTag.isPrefixOf (c :: (m ++ (endTag ++ r))) = false := by
      apply isPrefixOf_eq_false
      intro hp
      have hp2 : endTag <+: ((c :: m) ++ (endTag ++ r)) := by
        rw [List.cons_append]; exact hp
      exact H (tag_prefix_of_guard (show endTag.length = 7 + 1 from rfl)
        (List.cons_ne_nil c m) hp2)
    rw [if_neg (by simp [hpre])]
    apply ih
    intro hi
    exact H (by rw [List.cons_append]; exact infix_cons_of hi)

/-! ### Fuel bookkeeping for the substitution scan -/

lemma subThinkFuel_congr : ∀ (n m : Nat) (l : List Char),
    l.length ≤ n → l.length ≤ m → subThinkFuel n l = subThinkFuel m l := by
  intro n
  induction n with
  | zero =>
    intro m l h1 _
    have : l = [] := List.length_eq_zero.mp (Nat.le_zero.mp h1)
    subst this
    cases m <;> rfl
  | succ n ih =>
    intro m l h1 h2
    cases l with
    | nil => cases m <;> rfl
    | cons c cs =>
      cases m with
      | zero => simp at h2
      | succ m =>
        rw [subThinkFuel, subThinkFuel]
        cases hpre : startTag.isPrefixOf (c :: cs) with
        | false =>
          rw [if_neg (by simp [hpre]), if_neg (by simp [hpre])]
          have hc : cs.length ≤ n := by simp at h1; omega
          have hc2 : cs.length ≤ m := by simp at h2; omega
          rw [ih m cs hc hc2]
        | true =>
          rw [if_pos (by simp [hpre]), if_pos (by simp [hpre])]
          cases hd : dropThroughEnd ((c :: cs).drop 7) with
          | none => rfl
          | some rest =>
            have hb := dropThroughEnd_length hd
            rw [List.length_drop] at hb
            simp only [List.length_cons] at h1 h2 hb
            exact ih m rest (by omega) (by omega)

lemma subThink_cons_neg {c : Char} {cs : List Char}
    (hpre : startTag.isPrefixOf (c :: cs) = false) :
    subThink (c :: cs) = c :: subThink cs := by
  show subThinkFuel (c :: cs).length (c :: cs) = _
  rw [List.length_cons, subThinkFuel, if_neg (by simp [hpre])]
  rfl

lemma subThink_cons_pos {c : Char} {cs rest : List Char}
    (hpre : startTag.isPrefixOf (c :: cs) = true)
    (hd : dropThroughEnd ((c :: cs).drop 7) = some rest) :
    subThink (c :: cs) = subThink rest := by
  show subThinkFuel (c :: cs).length (c :: cs) = _
  rw [List.length_cons, subThinkFuel, if_pos (by simp [hpre]), hd]
  have hb := dropThroughEnd_length hd
  rw [List.length_drop] at hb
  simp only [List.length_cons] at hb
  exact subThinkFuel_congr _ _ _ (by omega) (Nat.le_refl _)

lemma subThink_cons_unterminated {c : Char} {cs : List Char}
    (hpre : startTag.isPrefixOf (c :: cs) = true)
    (hd : dropThroughEnd ((c :: cs).drop 7) = none) :
    subThink (c :: cs) = c :: cs := by
  show subThinkFuel (c :: cs).length (c :: cs) = _
  rw [List.length_cons, subThinkFuel, if_pos (by simp [hpre]), hd]

lemma subThink_pos {l rest : List Char} (hne : l ≠ [])
    (hpre : startTag.isPrefixOf l = true)
    (hd : dropThroughEnd (l.drop 7) = some rest) :
    subThink l = subThink rest := by
  cases l with
  | nil => exact absurd rfl hne
  | cons c cs => exact subThink_cons_pos hpre hd

lemma subThink_unmatched {l : List Char} (hne : l ≠ [])
    (hpre : startTag.isPrefixOf l = true)
    (hd : dropThroughEnd (l.drop 7) = none) :
    subThink l = l := by
  cases l with
  | nil => exact absurd rfl hne
  | cons c cs => exact subThink_cons_unterminated hpre hd

/-! ### Behaviour of the substitution scan -/

/-- Text without a start marker is left unchanged by the substitution. -/
lemma subThink_of_no_start {l : List Char} (H : ¬ startTag <:+: l) : subThink l = l := by
  induction l with
  | nil => rfl
  | cons c cs ih =>
    have hpre : startTag.isPrefixOf (c :: cs) = false :=
      isPrefixOf_eq_false (fun hp => H (infix_of_pref hp))
    rw [subThink_cons_neg hpre, ih (fun hi => H (infix_cons_of hi))]

/-- One matched span is removed whole: the text before it (no start
marker inside, none leaking into the marker) is kept, the span including
both markers disappears, scanning continues after the end marker. -/
lemma subThink_removes_span (a m r : List Char)
    (H1 : ¬ startTag <:+: (a ++ startTag.take 6))
    (H2 : ¬ endTag <:+: (m ++ endTag.take 7)) :
    subThink (a ++ (startTag ++ (m ++ (endTag ++ r)))) = a ++ subThink r := by
  induction a with
  | nil =>
    rw [List.nil_append, List.nil_append]
    have hpre : startTag.isPrefixOf (startTag ++ (m ++ (endTag ++ r))) = true :=
      isPrefixOf_eq_true.mpr (List.prefix_append _ _)
    have hd : dropThroughEnd ((startTag ++ (m ++ (endTag ++ r))).drop 7) = some r := by
      rw [List.drop_left' (show startTag.length = 7 from rfl)]
      exact dropThroughEnd_append H2
    exact subThink_pos (fun h => absurd (List.append_eq_nil.mp h).1 (by decide)) hpre hd
  | cons c a ih =>
    rw [List.cons_append]
    have hpre : startTag.isPrefixOf (c :: (a ++ (startTag ++ (m ++ (endTag ++ r))))) = false := by
      apply isPrefixOf_eq_false
      intro hp
      have hp2 : startTag <+: ((c :: a) ++ (startTag ++ (m ++ (endTag ++ r)))) := by
        rw [List.cons_append]; exact hp
      exact H1 (tag_prefix_of_guard (show startTag.length = 6 + 1 from rfl)
        (List.cons_ne_nil c a) hp2)
    rw [subThink_cons_neg hpre, ih (fun hi => H1 (infix_cons_of hi))]
    rfl

/-- A start marker with no following end marker is left in place, along
with everything around it. -/
lemma subThink_unterminated (a m : List Char)
    (H1 : ¬ startTag <:+: (a ++ startTag.take 6))
    (H2 : ¬ endTag <:+: m) :
    subThink (a ++ (startTag ++ m)) = a ++ (startTag ++ m) := by
  induction a with
  | nil =>
    rw [List.nil_append]
    have hpre : startTag.isPrefixOf (startTag ++ m) = true :=
      isPrefixOf_eq_true.mpr (List.prefix_append _ _)
    have hd : dropThroughEnd ((startTag ++ m).drop 7) = none := by
      rw [List.drop_left' (show startTag.length = 7 from rfl)]
      exact dropThroughEnd_of_no_end H2
    exact subThink_unmatched (fun h => absurd (List.append_eq_nil.mp h).1 (by decide)) hpre hd
  | cons c a ih =>
    rw [List.cons_append]
    have hpre : startTag.isPrefixOf (c :: (a ++ (startTag ++ m))) = false := by
      apply isPrefixOf_eq_false
      intro hp
      have hp2 : startTag <+: ((c :: a) ++ (startTag ++ m)) := by
        rw [List.cons_append]; exact hp
      exact H1 (tag_prefix_of_guard (show startTag.length = 6 + 1 from rfl)
        (List.cons_ne_nil c a) hp2)
    rw [subThink_cons_neg hpre, ih (fun hi => H1 (infix_cons_of hi))]

/-- Every matched span of an alternating layout is removed, across the
whole input. -/
lemma subThink_encodeSegs (ps : List (List Char × List Char)) (t : List Char)
    (hps : ∀ q ∈ ps,
      ¬ startTag <:+: (q.1 ++ startTag.take 6) ∧ ¬ endTag <:+: (q.2 ++ endTag.take 7))
    (ht : ¬ startTag <:+: t) :
    subThink (encodeSegs ps t) = (ps.map Prod.fst).flatten ++ t := by
  induction ps with
  | nil => simpa [encodeSegs] using subThink_of_no_start ht
  | cons q ps ih =>
    obtain ⟨a, m⟩ := q
    have h := hps (a, m) (List.mem_cons_self _ _)
    simp only [encodeSegs]
    rw [subThink_removes_span a m _ h.1 h.2,
      ih (fun q hq => hps q (List.mem_cons_of_mem _ hq))]
    simp [List.append_assoc]

/-! ### Whitespace trimming -/

lemma head_dropWhile_false {p : Char → Bool} {l : List Char} {c : Char}
    (h : (l.dropWhile p).head? = some c) : p c = false := by
  induction l with
  | nil => simp at h
  | cons a as ih =>
    rw [List.dropWhile_cons] at h
    split at h
    · exact ih h
    · rename_i hpa
      simp only [List.head?_cons, Option.some.injEq] at h
      subst h
      cases hb : p a
      · rfl
      · exact absurd hb hpa

lemma getLast_dropWhile {p : Char → Bool} {l : List Char}
    (h : l.dropWhile p ≠ []) : (l.dropWhile p).getLast? = l.getLast? := by
  induction l with
  | nil => simp at h
  | cons a as ih =>
    rw [List.dropWhile_cons] at h ⊢
    by_cases hpa : p a = true
    · rw [if_pos hpa] at h ⊢
      have hne : as ≠ [] := by
        intro h0
        rw [h0] at h
        exact h rfl
      cases as with
      | nil => exact absurd rfl hne
      | cons b bs => rw [List.getLast?_cons_cons]; exact ih h
    · rw [if_neg hpa]

lemma dropWhile_eq_self_of_head {p : Char → Bool} {l : List Char}
    (h : ∀ c, l.head? = some c → p c = false) : l.dropWhile p = l := by
  cases l with
  | nil => rfl
  | cons a as =>
    rw [List.dropWhile_cons, if_neg]
    simp [h a rfl]

/-- The head of a trimmed text is never whitespace. -/
lemma trimChars_head {l : List Char} {c : Char}
    (h : (trimChars l).head? = some c) : c.isWhitespace = false := by
  unfold trimChars at h
  rw [List.head?_reverse] at h
  have hne : (List.dropWhile Char.isWhitespace
      (List.dropWhile Char.isWhitespace l).reverse) ≠ [] := by
    intro h0
    rw [h0] at h
    simp at h
  rw [getLast_dropWhile hne, List.getLast?_reverse] at h
  exact head_dropWhile_false h

/-- The last character of a trimmed text is never whitespace. -/
lemma trimChars_getLast {l : List Char} {c : Char}
    (h : (trimChars l).getLast? = some c) : c.isWhitespace = false := by
  unfold trimChars at h
  rw [List.getLast?_reverse] at h
  exact head_dropWhile_false h

lemma trimChars_idem (l : List Char) : trimChars (trimChars l) = trimChars l := by
  have h1 : (trimChars l).dropWhile Char.isWhitespace = trimChars l :=
    dropWhile_eq_self_of_head (fun _ hc => trimChars_head hc)
  show (((trimChars l).dropWhile _).reverse.dropWhile _).reverse = trimChars l
  rw [h1]
  have h2 : (trimChars l).reverse.dropWhile Char.isWhitespace = (trimChars l).reverse :=
    dropWhile_eq_self_of_head (fun _ hc => by
      rw [List.head?_reverse] at hc
      exact trimChars_getLast hc)
  rw [h2, List.reverse_reverse]

lemma remove_think_tags_data (s : String) :
    (remove_think_tags s).data = trimChars (subThink s.data) := rfl

/-- Stripping is idempotent whenever its output contains no start marker
any more (removal can splice a fresh marker together, so this is not
unconditional). -/
lemma remove_think_tags_idem_of_no_start (s : String)
    (H : ¬ startTag <:+: (remove_think_tags s).data) :
    remove_think_tags (remove_think_tags s) = remove_think_tags s := by
  have h0 : subThink ((remove_think_tags s).data) = (remove_think_tags s).data :=
    subThink_of_no_start H
  show String.mk (trimChars (subThink ((remove_think_tags s).data))) = remove_think_tags s
  rw [h0, remove_think_tags_data, trimChars_idem]
  rfl

/-! ### Page joining -/

lemma join_with_length (l : List String) :
    (join_with pageBreakMarker l).length
      = (l.map String.length).sum + 22 * (l.length - 1) := by
  induction l with
  | nil => rfl
  | cons t ts ih =>
    cases ts with
    | nil => simp [join_with]
    | cons t2 ts2 =>
      rw [show join_with pageBreakMarker (t :: t2 :: ts2)
            = t ++ pageBreakMarker ++ join_with pageBreakMarker (t2 :: ts2) from rfl,
        String.length_append, String.length_append, ih,
        show pageBreakMarker.length = 22 from rfl]
      simp only [List.map_cons, List.sum_cons, List.length_cons]
      omega

lemma join_with_data (l : List String) :
    (join_with pageBreakMarker l).data = charJoin pageBreakData (l.map String.data) := by
  induction l with
  | nil => rfl
  | cons t ts ih =>
    cases ts with
    | nil => rfl
    | cons t2 ts2 =>
      rw [show join_with pageBreakMarker (t :: t2 :: ts2)
            = t ++ pageBreakMarker ++ join_with pageBreakMarker (t2 :: ts2) from rfl]
      rw [String.data_append, String.data_append, ih]
      rfl

/-! ### Stream assembly -/

lemma foldl_concat_data (chunks : List (Option String)) : ∀ acc : String,
    (chunks.foldl (fun a c => a ++ c.getD "") acc).data
      = acc.data ++ ((chunks.filterMap id).map String.data).flatten := by
  induction chunks with
  | nil => intro acc; simp
  | cons c cs ih =>
    intro acc
    rw [List.foldl_cons, ih]
    cases c with
    | none => simp
    | some s => simp [List.append_assoc]

lemma concatChunks_data (chunks : List (Option String)) :
    (concatChunks chunks).data = ((chunks.filterMap id).map String.data).flatten := by
  simpa using foldl_concat_data chunks ""

/-! ### Session state -/

lemma updateState_same (st : SessionState) (k v : String) :
    updateState st k v k = some v := by
  simp [updateState]

/-! ### Re-splitting on the page-break marker -/

lemma infix_append_left {l x y : List Char} (h : l <:+: x) : l <:+: x ++ y := by
  obtain ⟨s, t, hst⟩ := h
  exact ⟨s, t ++ y, by rw [← hst]; simp [List.append_assoc]⟩

lemma splitPBFuel_ne_nil : ∀ (n : Nat) (l : List Char), splitPBFuel n l ≠ [] := by
  intro n
  induction n with
  | zero => intro l; exact List.cons_ne_nil l []
  | succ n ih =>
    intro l
    cases l with
    | nil => exact List.cons_ne_nil [] []
    | cons c cs =>
      rw [splitPBFuel]
      by_cases hpre : pageBreakData.isPrefixOf (c :: cs) = true
      · rw [if_pos hpre]; exact List.cons_ne_nil _ _
      · rw [if_neg hpre]
        cases hs : splitPBFuel n cs with
        | nil => exact List.cons_ne_nil _ _
        | cons h t => exact List.cons_ne_nil _ _

lemma splitPBFuel_congr : ∀ (n m : Nat) (l : List Char),
    l.length ≤ n → l.length ≤ m → splitPBFuel n l = splitPBFuel m l := by
  intro n
  induction n with
  | zero =>
    intro m l h1 _
    have : l = [] := List.length_eq_zero.mp (Nat.le_zero.mp h1)
    subst this
    cases m <;> rfl
  | succ n ih =>
    intro m l h1 h2
    cases l with
    | nil => cases m <;> rfl
    | cons c cs =>
      cases m with
      | zero => simp at h2
      | succ m =>
        rw [splitPBFuel, splitPBFuel]
        by_cases hpre : pageBreakData.isPrefixOf (c :: cs) = true
        · rw [if_pos hpre, if_pos hpre]
          have hle := (isPrefixOf_eq_true.mp hpre).length_le
          rw [show pageBreakData.length = 22 from rfl] at hle
          simp only [List.length_cons] at h1 h2 hle
          rw [ih m _ (by rw [List.length_drop]; simp; omega)
            (by rw [List.length_drop]; simp; omega)]
        · rw [if_neg hpre, if_neg hpre]
          simp only [List.length_cons] at h1 h2
          rw [ih m cs (by omega) (by omega)]

lemma splitPB_ne_nil (l : List Char) : splitPB l ≠ [] :=
  splitPBFuel_ne_nil _ _

lemma splitPB_pos {l : List Char} (hne : l ≠ [])
    (hpre : pageBreakData.isPrefixOf l = true) :
    splitPB l = [] :: splitPB (l.drop 22) := by
  cases l with
  | nil => exact absurd rfl hne
  | cons c cs =>
    show splitPBFuel (c :: cs).length (c :: cs) = _
    rw [List.length_cons, splitPBFuel, if_pos hpre]
    have hle := (isPrefixOf_eq_true.mp hpre).length_le
    rw [show pageBreakData.length = 22 from rfl] at hle
    simp only [List.length_cons] at hle
    rw [splitPBFuel_congr cs.length ((c :: cs).drop 22).length ((c :: cs).drop 22)
      (by rw [List.length_drop]; simp only [List.length_cons]; omega) (Nat.le_refl _)]
    rfl

lemma splitPB_cons_neg {c : Char} {cs h : List Char} {t : List (List Char)}
    (hpre : pageBreakData.isPrefixOf (c :: cs) = false)
    (hs : splitPB cs = h :: t) :
    splitPB (c :: cs) = (c :: h) :: t := by
  show splitPBFuel (c :: cs).length (c :: cs) = _
  rw [List.length_cons, splitPBFuel, if_neg (by simp [hpre])]
  have : splitPBFuel cs.length cs = h :: t := hs
  rw [this]

lemma splitPB_no_marker {l : List Char} (H : ¬ pageBreakData <:+: l) :
    splitPB l = [l] := by
  induction l with
  | nil => rfl
  | cons c cs ih =>
    have hpre : pageBreakData.isPrefixOf (c :: cs) = false :=
      isPrefixOf_eq_false (fun hp => H (infix_of_pref hp))
    exact splitPB_cons_neg hpre (ih (fun hi => H (infix_cons_of hi)))

/-- Splitting consumes a marker-free chunk followed by a separator, and
continues after the separator. -/
lemma splitPB_append {p rest : List Char}
    (H : ¬ pageBreakData <:+: (p ++ pageBreakData.take 21)) :
    splitPB (p ++ (pageBreakData ++ rest)) = p :: splitPB rest := by
  induction p with
  | nil =>
    rw [List.nil_append]
    rw [splitPB_pos (fun h => absurd (List.append_eq_nil.mp h).1 (by decide))
      (isPrefixOf_eq_true.mpr (List.prefix_append _ _))]
    rw [List.drop_left' (show pageBreakData.length = 22 from rfl)]
  | cons c p ih =>
    rw [List.cons_append]
    have hpre : pageBreakData.isPrefixOf (c :: (p ++ (pageBreakData ++ rest))) = false := by
      apply isPrefixOf_eq_false
      intro hp
      have hp2 : pageBreakData <+: ((c :: p) ++ (pageBreakData ++ rest)) := by
        rw [List.cons_append]; exact hp
      exact H (tag_prefix_of_guard (show pageBreakData.length = 21 + 1 from rfl)
        (List.cons_ne_nil c p) hp2)
    exact splitPB_cons_neg hpre (ih (fun hi => H (infix_cons_of hi)))

/-- Round trip: splitting a joined list of chunks recovers the chunks,
provided no chunk contains the marker, not even one completed by the
start of the following separator. -/
lemma splitPB_charJoin (parts : List (List Char)) (hne : parts ≠ [])
    (H : ∀ p ∈ parts, ¬ pageBreakData <:+: (p ++ pageBreakData.take 21)) :
    splitPB (charJoin pageBreakData parts) = parts := by
  induction parts with
  | nil => exact absurd rfl hne
  | cons p ps ih =>
    cases ps with
    | nil =>
      show splitPB p = [p]
      apply splitPB_no_marker
      intro hi
      exact H p (List.mem_cons_self _ _) (infix_append_left hi)
    | cons p2 ps2 =>
      rw [show charJoin pageBreakData (p :: p2 :: ps2)
            = p ++ pageBreakData ++ charJoin pageBreakData (p2 :: ps2) from rfl,
        List.append_assoc,
        splitPB_append (H p (List.mem_cons_self _ _)),
        ih (List.cons_ne_nil _ _) (fun q hq => H q (List.mem_cons_of_mem _ hq))]

/-! ### Claims -/

/-- Claim C1 fails on the code: after a Format run whose provider raised
`boom`, the stored entry is the failure message, and the next Translate
run for the same scope submits that failure message as its user content,
not the raw text. -/
theorem C1_counterexample :
    getUserContent (translate_click
        (format_click emptyState Scope.wholeDocument "RAW" "" (Except.error "boom")).1
        Scope.wholeDocument "RAW" "" (Except.ok [])).2.1
      = some "Error in formatting extraction: boom"
    ∧ "Error in formatting extraction: boom" ≠ "RAW" :=
  ⟨by decide, by decide⟩

/-- Claim C1 (amended): a Translate run submits the cached Format entry
whenever one exists — Success or Failure alike — and falls back to the
raw extracted text only when no entry exists for the scope. -/
theorem C1_translate_input_rule :
    (∀ (st : SessionState) (scope : Scope) (raw api_key : String)
        (pr pr2 : ProviderOutcome),
      getUserContent (translate_click (format_click st scope raw api_key pr).1
          scope raw api_key pr2).2.1
        = some (format_extraction raw api_key pr))
    ∧ (∀ (scope : Scope) (raw api_key : String) (pr : ProviderOutcome),
      getUserContent (translate_click emptyState scope raw api_key pr).2.1 = some raw) := by
  constructor
  · intro st scope raw api_key pr pr2
    show getUserContent (translate_messages ((updateState st (sessionKey scope)
        (format_extraction raw api_key pr) (sessionKey scope)).getD raw)) = _
    rw [updateState_same]
    rfl
  · intro scope raw api_key pr
    rfl

/-- Claim C2: every provider exception is caught inside the stage and
turned into the stage's failure message, which starts with the fixed
stage prefix and carries the exception description; the stage functions
are total, so no exception propagates out of them. -/
theorem C2_provider_errors_caught :
    ∀ (text api_key e : String),
      ("Error in formatting extraction: ").data <+:
          (format_extraction text api_key (Except.error e)).data
      ∧ e.data <:+ (format_extraction text api_key (Except.error e)).data
      ∧ ("Error in translation: ").data <+:
          (translate_to_malayalam text api_key (Except.error e)).data
      ∧ e.data <:+ (translate_to_malayalam text api_key (Except.error e)).data := by
  intro text api_key e
  exact ⟨⟨e.data, rfl⟩, ⟨("Error in formatting extraction: ").data, rfl⟩,
    ⟨e.data, rfl⟩, ⟨("Error in translation: ").data, rfl⟩⟩

/-- Claim C3: `remove_think_tags` removes every span from a start marker
to the nearest following end marker, markers included, across the whole
input (first conjunct); an unterminated start marker is left in place
(second conjunct); the result is trimmed of surrounding whitespace, and
is the identity-after-trim when no marker occurs (third conjunct);
nested markers are not balanced — matching stops at the nearest end
marker (fourth conjunct). -/
theorem C3_remove_think_tags_spec :
    (∀ (ps : List (List Char × List Char)) (t : List Char),
      (∀ q ∈ ps, ¬ startTag <:+: (q.1 ++ startTag.take 6)
        ∧ ¬ endTag <:+: (q.2 ++ endTag.take 7)) →
      ¬ startTag <:+: t →
      subThink (encodeSegs ps t) = (ps.map Prod.fst).flatten ++ t)
    ∧ (∀ a m, ¬ startTag <:+: (a ++ startTag.take 6) → ¬ endTag <:+: m →
        subThink (a ++ (startTag ++ m)) = a ++ (startTag ++ m))
    ∧ (∀ l, ¬ startTag <:+: l →
        remove_think_tags (String.mk l) = String.mk (trimChars l))
    ∧ remove_think_tags " <think>a<think>b</think>c</think> " = "c</think>" := by
  refine ⟨subThink_encodeSegs, subThink_unterminated, ?_, by decide⟩
  intro l H
  show String.mk (trimChars (subThink (String.mk l).data)) = _
  rw [show (String.mk l).data = l from rfl, subThink_of_no_start H]

/-- Claim C3, witnessed at a concrete input: one span is removed whole. -/
theorem C3_witness :
    subThink (encodeSegs [("A".data, "x".data)] "B".data)
      = ([("A".data, "x".data)].map Prod.fst).flatten ++ "B".data :=
  C3_remove_think_tags_spec.1 [("A".data, "x".data)] "B".data (by decide) (by decide)

/-- Claim C4: whole-document extraction joins the page texts in page
order with the literal separator: an empty document yields the empty
string, one page yields its text alone, each further page follows one
separator, and the total length accounts for every page's text plus
exactly N−1 separators of length 22 — no page is skipped. -/
theorem C4_extract_all_text_join :
    (extract_all_text ⟨[]⟩ = "")
    ∧ (∀ p, extract_all_text ⟨[p]⟩ = p.extract_text)
    ∧ (∀ p p2 ps, extract_all_text ⟨p :: p2 :: ps⟩
        = p.extract_text ++ pageBreakMarker ++ extract_all_text ⟨p2 :: ps⟩)
    ∧ (∀ r : PdfReader, (extract_all_text r).length
        = (r.pages.map fun p => p.extract_text.length).sum + 22 * (r.pages.length - 1)) := by
  refine ⟨rfl, fun p => rfl, fun p p2 ps => rfl, fun r => ?_⟩
  have h := join_with_length (r.pages.map PdfPage.extract_text)
  simpa [List.map_map, Function.comp] using h

/-- Claim C5 fails on the code: a single page containing the page-break
marker produces the same combined output as two separate pages, so the
combined text cannot be losslessly re-split regardless of splitter;
concretely, splitting yields two chunks from one page. -/
theorem C5_counterexample :
    extract_all_text ⟨[⟨"a\n\n--- Page Break ---\n\nb"⟩]⟩
      = extract_all_text ⟨[⟨"a"⟩, ⟨"b"⟩]⟩
    ∧ splitPB (extract_all_text ⟨[⟨"a\n\n--- Page Break ---\n\nb"⟩]⟩).data
        = ["a".data, "b".data]
    ∧ (⟨[⟨"a\n\n--- Page Break ---\n\nb"⟩]⟩ : PdfReader).pages.length
        ≠ (⟨[⟨"a"⟩, ⟨"b"⟩]⟩ : PdfReader).pages.length :=
  ⟨by decide, by decide, by decide⟩

/-- Claim C5 (amended): provided no page's text contains the page-break
marker — not even a marker completed by the opening characters of the
following separator — splitting the combined output on the marker
recovers exactly the per-page texts. -/
theorem C5_roundtrip_marker_free :
    ∀ r : PdfReader, r.pages ≠ [] →
      (∀ p ∈ r.pages,
        ¬ pageBreakData <:+: (p.extract_text.data ++ pageBreakData.take 21)) →
      splitPB (extract_all_text r).data
        = (r.pages.map PdfPage.extract_text).map String.data := by
  intro r hne H
  rw [show (extract_all_text r).data
      = charJoin pageBreakData ((r.pages.map PdfPage.extract_text).map String.data)
    from join_with_data _]
  apply splitPB_charJoin
  · intro h0
    exact hne (List.map_eq_nil_iff.mp (List.map_eq_nil_iff.mp h0))
  · intro q hq
    obtain ⟨s, hs1, rfl⟩ := List.mem_map.mp hq
    obtain ⟨p, hp1, rfl⟩ := List.mem_map.mp hs1
    exact H p hp1

/-- Claim C5 (amended), witnessed on the spec's two-page document. -/
theorem C5_witness :
    splitPB (extract_all_text ⟨[⟨"Hello"⟩, ⟨"World"⟩]⟩).data
      = ((⟨[⟨"Hello"⟩, ⟨"World"⟩]⟩ : PdfReader).pages.map PdfPage.extract_text).map
          String.data :=
  C5_roundtrip_marker_free ⟨[⟨"Hello"⟩, ⟨"World"⟩]⟩ (List.cons_ne_nil _ _) (by decide)

/-- Claim C6 fails on the code: removing a span can splice a fresh
marker pair together out of the surrounding text, so a second strip
removes more than the first. -/
theorem C6_counterexample :
    remove_think_tags (remove_think_tags "<thi<think>x</think>nk>ok</think>")
      ≠ remove_think_tags "<thi<think>x</think>nk>ok</think>" := by decide

/-- Claim C6 (amended): the stripper is idempotent on every input whose
stripped output no longer contains a start marker. -/
theorem C6_strip_idempotent_cond :
    ∀ s : String, ¬ startTag <:+: (remove_think_tags s).data →
      remove_think_tags (remove_think_tags s) = remove_think_tags s :=
  remove_think_tags_idem_of_no_start

/-- Claim C6 (amended), witnessed at a concrete input. -/
theorem C6_witness :
    remove_think_tags (remove_think_tags "a<think>x</think>b")
      = remove_think_tags "a<think>x</think>b" :=
  C6_strip_idempotent_cond "a<think>x</think>b" (by decide)

/-- Claim C7: stream assembly concatenates exactly the non-absent
fragments in emission order; an absent fragment contributes nothing and
raises nothing, the empty stream yields the empty string, and emission
order is preserved (swapping fragments changes the result). -/
theorem C7_stream_assembly :
    (concatChunks [] = "")
    ∧ (∀ chunks : List (Option String),
        (concatChunks chunks).data = ((chunks.filterMap id).map String.data).flatten)
    ∧ (concatChunks [some "a", none, some "b"] = "ab")
    ∧ (concatChunks [some "b", some "a"] ≠ concatChunks [some "a", some "b"]) :=
  ⟨rfl, concatChunks_data, by decide, by decide⟩

/-- Claim C8 fails on the code for the Translate stage: a Translate run
stores nothing, so after two Translate runs the scope's cell is still
empty — the lookup yields `none`, not the second result (which the run
did produce and display). -/
theorem C8_counterexample :
    ((translate_click (translate_click emptyState Scope.wholeDocument "RAW" ""
        (Except.ok [some "ONE"])).1 Scope.wholeDocument "RAW" ""
        (Except.ok [some "TWO"])).1 (sessionKey Scope.wholeDocument) = none)
    ∧ translate_to_malayalam "RAW" "" (Except.ok [some "TWO"]) = "TWO" :=
  ⟨rfl, by decide⟩

/-- Claim C8 (amended): re-running Format overwrites the scope's stored
cell — the lookup afterwards yields only the second result, computed by
a fresh call that ignores the first result — while a Translate run is
also always attempted fresh but stores nothing, leaving the session
state unchanged. -/
theorem C8_rerun_semantics :
    (∀ (st : SessionState) (scope : Scope) (raw1 raw2 api_key : String)
        (pr1 pr2 : ProviderOutcome),
      (format_click (format_click st scope raw1 api_key pr1).1
          scope raw2 api_key pr2).1 (sessionKey scope)
        = some (format_extraction raw2 api_key pr2))
    ∧ (∀ (st : SessionState) (scope : Scope) (raw api_key : String)
        (pr : ProviderOutcome),
      (translate_click st scope raw api_key pr).1 = st) := by
  constructor
  · intro st scope raw1 raw2 api_key pr1 pr2
    exact updateState_same _ _ _
  · intro st scope raw api_key pr
    rfl

/-- Claim C9: the value a stage returns when the provider call completes
(the Success text) has neither leading nor trailing whitespace: the
assembled stream always passes through the stripper, which ends with a
trim. -/
theorem C9_success_trimmed :
    ∀ (text api_key : String) (chunks : List (Option String)) (c : Char),
      ((format_extraction text api_key (Except.ok chunks)).data.head? = some c →
        c.isWhitespace = false)
      ∧ ((format_extraction text api_key (Except.ok chunks)).data.getLast? = some c →
        c.isWhitespace = false)
      ∧ ((translate_to_malayalam text api_key (Except.ok chunks)).data.head? = some c →
        c.isWhitespace = false)
      ∧ ((translate_to_malayalam text api_key (Except.ok chunks)).data.getLast? = some c →
        c.isWhitespace = false) := by
  intro text api_key chunks c
  exact ⟨fun h => trimChars_head h, fun h => trimChars_getLast h,
    fun h => trimChars_head h, fun h => trimChars_getLast h⟩

/-- Claim C9, witnessed at a concrete stream whose raw assembly has
surrounding whitespace. -/
theorem C9_witness :
    ('h').isWhitespace = false ∧ ('i').isWhitespace = false :=
  ⟨(C9_success_trimmed "t" "" [some " hi "] 'h').1 (by decide),
   (C9_success_trimmed "t" "" [some " hi "] 'i').2.1 (by decide)⟩

/-- Claim C10: on a provider exception the stage output is exactly the
fixed stage prefix followed by the exception description, for both
stages; the failure text is not passed through the stripper or trimmed
(the concrete instance keeps markers and trailing whitespace that
stripping would remove). -/
theorem C10_failure_text_verbatim :
    (∀ text api_key e, format_extraction text api_key (Except.error e)
        = "Error in formatting extraction: " ++ e)
    ∧ (∀ text api_key e, translate_to_malayalam text api_key (Except.error e)
        = "Error in translation: " ++ e)
    ∧ format_extraction "t" "" (Except.error " <think>x</think> ")
        = "Error in formatting extraction:  <think>x</think> "
    ∧ remove_think_tags "Error in formatting extraction:  <think>x</think> "
        ≠ "Error in formatting extraction:  <think>x</think> " :=
  ⟨fun _ _ _ => rfl, fun _ _ _ => rfl, by decide, by decide⟩

end App
